import Mathlib

/-!
Verification of the XLS JIT channel-queue / serial proc runtime core.

The development shallowly embeds:
* the value codec (`Pack`/`Unpack`/`BlitValueToBuffer`) used at the typed
  channel boundary (modelled from the spec, §4.4, since `jit_runtime.cc`
  is not among the sources — only its header is);
* the circular byte store `ByteQueue` (constructor and `Resize` from
  `jit_channel_queue.cc`; `Write`/`Read`/accessors modelled from the spec,
  §4.1, since `jit_channel_queue.h` is not among the sources);
* the typed queue boundary `WriteValueOnQueue` / `ReadValueFromQueue` and
  the thread-safe / thread-unsafe queue internals (from
  `jit_channel_queue.cc`);
* the scheduler loop `SerialProcRuntime::Tick`, initial-value seeding in
  `SerialProcRuntime::Init`, and `SerialProcRuntime::ResetState` (from
  `serial_proc_runtime.cc`), with the per-proc compiled tick entry point
  (`ProcJit::Tick`) left abstract as a step function.
-/

namespace XlsJit

/-! ## Value model

The abstract tagged-value model marshalled by the codec: bits of a given
width, tuples, arrays (spec §3, §4.4). -/

/-- Type descriptors of channel element types. -/
inductive XType : Type where
  | bits (width : Nat)
  | tuple (elems : List XType)
  | array (n : Nat) (elem : XType)

/-- Structured values of the abstract tagged-value model. -/
inductive XValue : Type where
  | bits (width : Nat) (val : Nat)
  | tuple (elems : List XValue)
  | array (elems : List XValue)

mutual

/-- Modelled from the spec: packed byte size of a type — integers use the
minimal byte count, tuples and arrays are concatenations of their element
packings with no implicit padding (spec §4.4). -/
def packedSize : XType → Nat
  | .bits w => (w + 7) / 8
  | .tuple ts => packedSizeList ts
  | .array n t => n * packedSize t

/-- Packed size of a list of types (tuple fields), in declared order. -/
def packedSizeList : List XType → Nat
  | [] => 0
  | t :: ts => packedSize t + packedSizeList ts

end

mutual

/-- Type-membership check: `hasType v t` holds when `v` is a value of
channel type `t` (bit values in range, shapes matching). -/
def hasType : XValue → XType → Bool
  | .bits w v, .bits w2 => w == w2 && decide (v < 2 ^ w)
  | .tuple vs, .tuple ts => hasTypeList vs ts
  | .array vs, .array n t => (vs.length == n) && hasTypeArray vs t
  | _, _ => false

/-- Pointwise type check of tuple fields. -/
def hasTypeList : List XValue → List XType → Bool
  | [], [] => true
  | v :: vs, t :: ts => hasType v t && hasTypeList vs ts
  | _, _ => false

/-- All elements of an array have the element type. -/
def hasTypeArray : List XValue → XType → Bool
  | [], _ => true
  | v :: vs, t => hasType v t && hasTypeArray vs t

end

/-- Little-endian byte encoding of `v` into exactly `n` bytes. -/
def natToLEBytes : Nat → Nat → List Nat
  | 0, _ => []
  | n + 1, v => v % 256 :: natToLEBytes n (v / 256)

/-- Little-endian byte decoding. -/
def leBytesToNat : List Nat → Nat
  | [] => 0
  | b :: bs => b % 256 + 256 * leBytesToNat bs

mutual

/-- Modelled from the spec: `JitRuntime` packing (`PackArgs` /
`BlitValueToBuffer` payload) — a byte-exact flat representation: an integer
of width `w` packed little-endian into the minimal `⌈w/8⌉` bytes, tuples
and arrays as the concatenation of their element packings in declared
order with no implicit padding (spec §4.4). -/
def packValue : XValue → List Nat
  | .bits w v => natToLEBytes ((w + 7) / 8) v
  | .tuple vs => packValueList vs
  | .array vs => packValueList vs

/-- Concatenated packing of a list of values in declared order. -/
def packValueList : List XValue → List Nat
  | [] => []
  | v :: vs => packValue v ++ packValueList vs

end

mutual

/-- Modelled from the spec: `JitRuntime::UnpackBuffer` — inverse of
`packValue`; reads the packed prefix of `buf` at type `t` and rebuilds the
structured value, zero-extending integers from their minimal byte count
(spec §4.4). -/
def unpackValue : XType → List Nat → XValue
  | .bits w, buf => .bits w (leBytesToNat (buf.take ((w + 7) / 8)) % 2 ^ w)
  | .tuple ts, buf => .tuple (unpackValueList ts buf)
  | .array n t, buf => .array (unpackValueArray n t buf)

/-- Unpack consecutive tuple fields, each past the packed size of the
previous ones. -/
def unpackValueList : List XType → List Nat → List XValue
  | [], _ => []
  | t :: ts, buf => unpackValue t buf :: unpackValueList ts (buf.drop (packedSize t))

/-- Unpack `n` consecutive array elements. -/
def unpackValueArray : Nat → XType → List Nat → List XValue
  | 0, _, _ => []
  | n + 1, t, buf => unpackValue t buf :: unpackValueArray n t (buf.drop (packedSize t))

end

/-! ## Circular Byte Store (`ByteQueue`)

Buffers are modelled as total functions `Nat → Nat` (byte index to byte
value) together with an explicit size field. The constructor and `Resize`
are translated from `jit_channel_queue.cc`; `Write`, `Read` and the
accessors live in the missing header and are modelled from spec §4.1. -/

/-- `RoundUpToNearest(x, y)`: `x` rounded up to the nearest multiple of
`y` (as in `xls/common/math_util.h`). -/
def roundUpToNearest (x y : Nat) : Nat := (x + y - 1) / y * y

/-- `memcpy` of `n` bytes from a non-overlapping source `src` (read from
offset 0) into `buf` at offset `off`. -/
def memcpyAt (buf : Nat → Nat) (off : Nat) (src : Nat → Nat) (n : Nat) :
    Nat → Nat :=
  fun i => if off ≤ i ∧ i < off + n then src (i - off) else buf i

/-- Sequential forward byte-wise copy inside one buffer, as performed by
`std::move(first, first + n, d_first)`: for `k = 0 .. n-1` in order,
`buf[dstOff + k] := buf[srcOff + k]`, each step reading the partially
updated buffer. -/
def copyFwd (buf : Nat → Nat) (srcOff dstOff : Nat) : Nat → (Nat → Nat)
  | 0 => buf
  | n + 1 =>
    Function.update (copyFwd buf srcOff dstOff n) (dstOff + n)
      (copyFwd buf srcOff dstOff n (srcOff + n))

/-- State of `ByteQueue` (fields as in the source class). -/
structure ByteQueue where
  channel_element_size : Nat
  allocated_element_size : Nat
  is_single_value : Bool
  circular_buffer_size : Nat
  circular_buffer : Nat → Nat
  max_byte_count : Nat
  read_index : Nat
  write_index : Nat
  bytes_used : Nat

/-- `ByteQueue::ByteQueue` (from `jit_channel_queue.cc`): compute the
stride as the element size rounded up to `alignof(std::max_align_t)`
(parameter `align`), size the zeroed buffer to the larger of
`kInitBufferSize` and the stride rounded up to a power of two, and derive
the element-aligned usable byte count. -/
def mkByteQueue (align kInitBufferSize : Nat) (channel_element_size : Nat)
    (is_single_value : Bool) : ByteQueue :=
  let allocated := roundUpToNearest channel_element_size align
  let element_size_2 := 2 ^ Nat.clog 2 allocated
  let size := if element_size_2 > kInitBufferSize then element_size_2
              else kInitBufferSize
  { channel_element_size := channel_element_size
    allocated_element_size := allocated
    is_single_value := is_single_value
    circular_buffer_size := size
    circular_buffer := fun _ => 0
    max_byte_count := size / allocated * allocated
    read_index := 0
    write_index := 0
    bytes_used := 0 }

/-- The backing buffer right after `std::vector::resize` to `s` of a
buffer whose valid prefix was `[0, s)`: old bytes kept, bytes past the old
size value-initialized to 0. -/
def grownBuffer (buf : Nat → Nat) (s : Nat) : Nat → Nat :=
  fun i => if i < s then buf i else 0

/-- `ByteQueue::Resize` (from `jit_channel_queue.cc`): double the backing
buffer (new bytes value-initialized to 0), recompute the usable byte
count, and when `read_index ≠ 0` relocate the wrapped prefix
`[0, read_index)` to `[bytes_used, bytes_used + read_index)`; then realign
the write index to the next available slot. -/
def ByteQueue.Resize (q : ByteQueue) : ByteQueue :=
  { q with
    circular_buffer_size := q.circular_buffer_size * 2
    circular_buffer :=
      if q.read_index ≠ 0 then
        copyFwd (grownBuffer q.circular_buffer q.circular_buffer_size)
          0 q.bytes_used q.read_index
      else
        grownBuffer q.circular_buffer q.circular_buffer_size
    max_byte_count :=
      q.circular_buffer_size * 2 / q.allocated_element_size
        * q.allocated_element_size
    write_index :=
      if q.bytes_used + q.read_index
          = q.circular_buffer_size * 2 / q.allocated_element_size
            * q.allocated_element_size
      then 0 else q.bytes_used + q.read_index }

/-- Modelled from the spec: `ByteQueue::Write` (declared in the missing
`jit_channel_queue.h`) — copies one element into the next free slot,
advancing `write_index` and `bytes_used`; when the store is full the
capacity doubles first (spec §4.1); for a `SingleValue` store the single
slot is overwritten instead (spec §3, §4.2). Never fails. -/
def ByteQueue.Write (q : ByteQueue) (data : Nat → Nat) : ByteQueue :=
  if q.is_single_value then
    { q with
      circular_buffer :=
        memcpyAt q.circular_buffer 0 data q.allocated_element_size
      bytes_used :=
        if q.bytes_used = 0 then q.allocated_element_size else q.bytes_used }
  else
    let q :=
      if q.bytes_used + q.allocated_element_size > q.max_byte_count then
        q.Resize
      else q
    let wi := q.write_index + q.allocated_element_size
    { q with
      circular_buffer :=
        memcpyAt q.circular_buffer q.write_index data q.allocated_element_size
      bytes_used := q.bytes_used + q.allocated_element_size
      write_index := if wi = q.max_byte_count then 0 else wi }

/-- Modelled from the spec: `ByteQueue::Read` (declared in the missing
header) — if `bytes_used == 0` returns false without touching the output
buffer or the queue state; otherwise copies the oldest element into `out`,
advances `read_index` and decrements `bytes_used` (spec §4.1); for a
`SingleValue` store the latest write stays visible (spec §3). -/
def ByteQueue.Read (q : ByteQueue) (out : Nat → Nat) :
    Bool × (Nat → Nat) × ByteQueue :=
  if q.bytes_used = 0 then (false, out, q)
  else
    let out' := memcpyAt out 0
      (fun i => q.circular_buffer (q.read_index + i)) q.allocated_element_size
    if q.is_single_value then (true, out', q)
    else
      let ri := q.read_index + q.allocated_element_size
      (true, out',
        { q with
          bytes_used := q.bytes_used - q.allocated_element_size
          read_index := if ri = q.max_byte_count then 0 else ri })

/-- Modelled from the spec: the element size accessor — the per-element
stride, computed at construction from the channel's type layout rounded up
to the platform's maximum alignment (spec §4.1). -/
def ByteQueue.element_size (q : ByteQueue) : Nat := q.allocated_element_size

/-- Modelled from the spec: `Size()` — the number of whole elements
currently stored, `bytes_used / element_size` (spec §4.1). -/
def ByteQueue.size (q : ByteQueue) : Nat :=
  q.bytes_used / q.allocated_element_size

/-- Well-formedness of a FIFO circular byte store: exactly the invariants
of spec §3 / §4.1 (`bytes_used ≤ capacity`,
`write_index = (read_index + bytes_used) % capacity`, element-aligned
usable capacity) plus element alignment of the indices. -/
structure WFq (q : ByteQueue) : Prop where
  not_single : q.is_single_value = false
  stride_pos : 0 < q.allocated_element_size
  stride_le : q.allocated_element_size ≤ q.circular_buffer_size
  max_eq : q.max_byte_count
      = q.circular_buffer_size / q.allocated_element_size
        * q.allocated_element_size
  read_lt : q.read_index < q.max_byte_count
  read_dvd : q.allocated_element_size ∣ q.read_index
  used_le : q.bytes_used ≤ q.max_byte_count
  used_dvd : q.allocated_element_size ∣ q.bytes_used
  write_eq : q.write_index
      = (q.read_index + q.bytes_used) % q.max_byte_count

/-- The stride-sized byte block of the `k`-th unread element. -/
def ByteQueue.elemAt (q : ByteQueue) (k : Nat) : List Nat :=
  (List.range q.allocated_element_size).map
    (fun i => q.circular_buffer
      ((q.read_index + k * q.allocated_element_size) % q.max_byte_count + i))

/-- The unread contents of the store, oldest first, each element as its
stride of bytes. -/
def ByteQueue.contents (q : ByteQueue) : List (List Nat) :=
  (List.range q.size).map q.elemAt

/-! ## Typed queue boundary (from `jit_channel_queue.cc`) -/

/-- Modelled from the spec: `JitRuntime::BlitValueToBuffer` (the body of
`jit_runtime.cc` is not among the sources) — splats the packed bytes of
`value` into the front of `buffer`, leaving trailing bytes (spec §4.4). -/
def BlitValueToBuffer (value : XValue) (buffer : List Nat) : List Nat :=
  packValue value ++ buffer.drop (packValue value).length

/-- `WriteValueOnQueue` (from `jit_channel_queue.cc`): pack the value into
a zero-initialized scratch buffer of the queue's element size, then write
that buffer onto the byte store. -/
def WriteValueOnQueue (value : XValue) (queue : ByteQueue) : ByteQueue :=
  queue.Write (fun i =>
    (BlitValueToBuffer value (List.replicate queue.element_size 0)).getD i 0)

/-- `ReadValueFromQueue` (from `jit_channel_queue.cc`): read one raw
element into a zero-initialized scratch buffer; on success unpack it at
the channel's type, otherwise report no value. -/
def ReadValueFromQueue (t : XType) (queue : ByteQueue) :
    Option XValue × ByteQueue :=
  let r := queue.Read (fun _ => 0)
  if r.1 then
    (some (unpackValue t ((List.range queue.element_size).map r.2.1)), r.2.2)
  else
    (none, r.2.2)

/-- `ThreadSafeJitChannelQueue::GetSizeInternal`. -/
def ThreadSafeGetSizeInternal (byte_queue : ByteQueue) : Nat :=
  byte_queue.size

/-- `ThreadSafeJitChannelQueue::WriteInternal`. -/
def ThreadSafeWriteInternal (value : XValue) (t : XType)
    (byte_queue : ByteQueue) : ByteQueue :=
  WriteValueOnQueue value byte_queue

/-- `ThreadSafeJitChannelQueue::ReadInternal`. -/
def ThreadSafeReadInternal (t : XType) (byte_queue : ByteQueue) :
    Option XValue × ByteQueue :=
  ReadValueFromQueue t byte_queue

/-- `ThreadUnsafeJitChannelQueue::GetSizeInternal`. -/
def ThreadUnsafeGetSizeInternal (byte_queue : ByteQueue) : Nat :=
  byte_queue.size

/-- `ThreadUnsafeJitChannelQueue::WriteInternal`. -/
def ThreadUnsafeWriteInternal (value : XValue) (t : XType)
    (byte_queue : ByteQueue) : ByteQueue :=
  WriteValueOnQueue value byte_queue

/-- `ThreadUnsafeJitChannelQueue::ReadInternal`. -/
def ThreadUnsafeReadInternal (t : XType) (byte_queue : ByteQueue) :
    Option XValue × ByteQueue :=
  ReadValueFromQueue t byte_queue

/-- `absl::Status` outcome at the runtime boundary. -/
inductive Status where
  | ok
  | error
deriving DecidableEq

/-- `SerialProcRuntime::EnqueueBufferToChannel` (from
`serial_proc_runtime.cc`): raw enqueue of an already-packed buffer via
`EnqueueRaw` (which writes it onto the byte store, spec §4.2);
unconditionally returns `OkStatus`. -/
def EnqueueBufferToChannel (queue : ByteQueue) (buffer : Nat → Nat) :
    Status × ByteQueue :=
  (Status.ok, queue.Write buffer)

/-- Enqueue phase of the FIFO-order test harness: raw writes in order. -/
def writeList (q : ByteQueue) (ds : List (Nat → Nat)) : ByteQueue :=
  ds.foldl ByteQueue.Write q

/-- Dequeue phase of the FIFO-order test harness: `n` raw reads, each
extracting the element bytes from a fresh zeroed scratch buffer. -/
def readAll (q : ByteQueue) : Nat → List (List Nat) × ByteQueue
  | 0 => ([], q)
  | n + 1 =>
    let r := q.Read (fun _ => 0)
    let rest := readAll r.2.2 n
    ((List.range q.allocated_element_size).map r.2.1 :: rest.1, rest.2)

/-- Single-threaded operation requests at the channel-queue boundary. -/
inductive QOp where
  | enqueueOp (v : XValue)
  | dequeueOp (t : XType)
  | getSizeOp

/-- Observable per-operation results. -/
inductive QOut where
  | unitOut
  | valueOut (o : Option XValue)
  | sizeOut (n : Nat)

/-- Run a single-threaded operation sequence against the thread-safe
queue variant's internals. -/
def runThreadSafe (q : ByteQueue) (t : XType) :
    List QOp → List QOut × ByteQueue
  | [] => ([], q)
  | op :: ops =>
    let (o, q') :=
      match op with
      | .enqueueOp v => (QOut.unitOut, ThreadSafeWriteInternal v t q)
      | .dequeueOp td =>
        let r := ThreadSafeReadInternal td q
        (QOut.valueOut r.1, r.2)
      | .getSizeOp => (QOut.sizeOut (ThreadSafeGetSizeInternal q), q)
    let rest := runThreadSafe q' t ops
    (o :: rest.1, rest.2)

/-- Run a single-threaded operation sequence against the thread-unsafe
queue variant's internals. -/
def runThreadUnsafe (q : ByteQueue) (t : XType) :
    List QOp → List QOut × ByteQueue
  | [] => ([], q)
  | op :: ops =>
    let (o, q') :=
      match op with
      | .enqueueOp v => (QOut.unitOut, ThreadUnsafeWriteInternal v t q)
      | .dequeueOp td =>
        let r := ThreadUnsafeReadInternal td q
        (QOut.valueOut r.1, r.2)
      | .getSizeOp => (QOut.sizeOut (ThreadUnsafeGetSizeInternal q), q)
    let rest := runThreadUnsafe q' t ops
    (o :: rest.1, rest.2)

/-! ## Runtime scheduler (`SerialProcRuntime`, from `serial_proc_runtime.cc`)

The per-proc compiled tick entry point (`ProcJit::Tick`) is external to
the sources; it is abstracted as a step function
`step : P → C → G → C × G × TickResult` over opaque proc ids `P`,
continuations `C` and shared channel state `G`. -/

/-- Result of one invocation of a proc's compiled tick entry point. -/
structure TickResult where
  progress_made : Bool
  tick_complete : Bool

/-- State of one `SerialProcRuntime::Tick` call: per-proc continuations,
the shared channel state, the local `completed_procs` set, the current
`progress_made` flag, and (as instrumentation) the ordered log of proc
invocations with their results. -/
structure TickState (P C G : Type) where
  continuations : P → C
  global : G
  completed_procs : List P
  progress_made : Bool
  trace : List (P × TickResult)

/-- The body of the inner `for` loop of `SerialProcRuntime::Tick`: skip a
proc whose tick already completed; otherwise invoke its compiled tick,
fold the reported progress into the pass flag, and record completion. -/
def tickVisit {P C G : Type} [DecidableEq P]
    (step : P → C → G → C × G × TickResult) (s : TickState P C G)
    (p : P) : TickState P C G :=
  if p ∈ s.completed_procs then s
  else
    let r := step p (s.continuations p) s.global
    { continuations := Function.update s.continuations p r.1
      global := r.2.1
      completed_procs :=
        if r.2.2.tick_complete then s.completed_procs ++ [p]
        else s.completed_procs
      progress_made := s.progress_made || r.2.2.progress_made
      trace := s.trace ++ [(p, r.2.2)] }

/-- One full pass of the `while` loop body: reset `progress_made`, then
visit every proc of the package in declaration order. -/
def tickPass {P C G : Type} [DecidableEq P]
    (step : P → C → G → C × G × TickResult) (procs : List P)
    (s : TickState P C G) : TickState P C G :=
  procs.foldl (tickVisit step) { s with progress_made := false }

/-- The `while (progress_made)` loop of `SerialProcRuntime::Tick`,
fuel-indexed; `none` means the loop has not converged within `fuel`
passes. -/
def tickLoop {P C G : Type} [DecidableEq P]
    (step : P → C → G → C × G × TickResult) (procs : List P) :
    Nat → TickState P C G → Option (TickState P C G)
  | 0, _ => none
  | fuel + 1, s =>
    if (tickPass step procs s).progress_made then
      tickLoop step procs fuel (tickPass step procs s)
    else some (tickPass step procs s)

/-- `SerialProcRuntime::Tick`: starting from an empty `completed_procs`
set, run passes until quiescent; on termination the status is always
`OkStatus`. -/
def SerialTick {P C G : Type} [DecidableEq P]
    (step : P → C → G → C × G × TickResult) (procs : List P) (fuel : Nat)
    (conts : P → C) (g : G) : Option (Status × TickState P C G) :=
  (tickLoop step procs fuel
    { continuations := conts, global := g, completed_procs := [],
      progress_made := true, trace := [] }).map
    (fun s => (Status.ok, s))

/-- `SerialProcRuntime` state after `Init`: the package's procs in
declaration order, per-proc compiled jits (opaque), per-proc
continuations, and the queue manager's per-channel queues. -/
structure SerialProcRuntimeState (P J C Ch Q : Type) where
  procs : List P
  proc_jits : P → J
  continuations : P → C
  queues : Ch → Q

/-- `SerialProcRuntime::ResetState` (from `serial_proc_runtime.cc`): for
each proc of the package, replace its continuation with a freshly created
one (`ProcJit::NewContinuation`, abstracted as `NewContinuation`);
nothing else is touched. -/
def ResetState {P J C Ch Q : Type} [DecidableEq P]
    (NewContinuation : P → C) (s : SerialProcRuntimeState P J C Ch Q) :
    SerialProcRuntimeState P J C Ch Q :=
  { s with continuations :=
      (s.procs.foldl
        (fun m p => Function.update m p (NewContinuation p))
        s.continuations) }

/-- Channel discipline (spec §3). -/
inductive ChannelKind where
  | fifo
  | single_value

/-- Modelled from the spec: value-level effect of `ChannelQueue::Enqueue`
(declared outside the sources) on a channel's queued values — FIFO
channels append, `SingleValue` channels overwrite the single slot (spec
§3, §4.2). -/
def enqueueValue (kind : ChannelKind) (content : List XValue)
    (v : XValue) : List XValue :=
  match kind with
  | .fifo => content ++ [v]
  | .single_value => [v]

/-- The initial-value seeding loop of `SerialProcRuntime::Init` (from
`serial_proc_runtime.cc`), run right after the queue manager is
constructed: for each channel of the package in declaration order,
enqueue its declared initial values in declared order. -/
def seedInitialValues {Ch : Type} [DecidableEq Ch] (channels : List Ch)
    (kind : Ch → ChannelKind) (initial_values : Ch → List XValue)
    (queues : Ch → List XValue) : Ch → List XValue :=
  channels.foldl
    (fun qs ch =>
      (initial_values ch).foldl
        (fun qs v => Function.update qs ch (enqueueValue (kind ch) (qs ch) v))
        qs)
    queues

/-! ## Theorems -/

theorem natToLEBytes_length (n v : Nat) : (natToLEBytes n v).length = n := by
  induction n generalizing v with
  | zero => rfl
  | succ n ih => simp [natToLEBytes, ih]

/-- Decompose a remainder modulo a product into low and high parts. -/
theorem mod_mul_decomp (v b c : Nat) (hb : 0 < b) (hc : 0 < c) :
    v % (b * c) = v % b + b * (v / b % c) := by
  have h1 : v % b < b := Nat.mod_lt _ hb
  have h2 : v / b % c < c := Nat.mod_lt _ hc
  have hlt : v % b + b * (v / b % c) < b * c := by
    calc v % b + b * (v / b % c) < b + b * (v / b % c) := by omega
      _ = b * (v / b % c + 1) := by ring
      _ ≤ b * c := Nat.mul_le_mul_left b (by omega)
  have hv : v = v % b + b * (v / b % c) + b * c * (v / b / c) := by
    have e1 : b * (v / b) + v % b = v := Nat.div_add_mod v b
    have e2 : c * (v / b / c) + v / b % c = v / b := Nat.div_add_mod (v / b) c
    calc v = b * (v / b) + v % b := e1.symm
      _ = b * (c * (v / b / c) + v / b % c) + v % b := by rw [e2]
      _ = v % b + b * (v / b % c) + b * c * (v / b / c) := by ring
  calc v % (b * c)
      = (v % b + b * (v / b % c) + b * c * (v / b / c)) % (b * c) := by rw [← hv]
    _ = (v % b + b * (v / b % c)) % (b * c) := Nat.add_mul_mod_self_left ..
    _ = v % b + b * (v / b % c) := Nat.mod_eq_of_lt hlt

theorem leBytesToNat_natToLEBytes (n v : Nat) :
    leBytesToNat (natToLEBytes n v) = v % 256 ^ n := by
  induction n generalizing v with
  | zero => simp [natToLEBytes, leBytesToNat, Nat.mod_one]
  | succ n ih =>
    have hM : 0 < 256 ^ n := Nat.pos_pow_of_pos n (by norm_num)
    have h : leBytesToNat (natToLEBytes (n + 1) v)
        = v % 256 % 256 + 256 * (v / 256 % 256 ^ n) := by
      simp [natToLEBytes, leBytesToNat, ih]
    have h2 : v % 256 % 256 = v % 256 := by omega
    rw [h, h2, pow_succ', mod_mul_decomp v 256 (256 ^ n) (by norm_num) hM]

theorem two_pow_le_weight (w : Nat) : 2 ^ w ≤ 256 ^ ((w + 7) / 8) := by
  have h8 : w ≤ 8 * ((w + 7) / 8) := by omega
  calc 2 ^ w ≤ 2 ^ (8 * ((w + 7) / 8)) := Nat.pow_le_pow_right (by norm_num) h8
    _ = (2 ^ 8) ^ ((w + 7) / 8) := by rw [pow_mul]
    _ = 256 ^ ((w + 7) / 8) := by norm_num

mutual

/-- A well-typed value packs to exactly the packed size of its type. -/
theorem packValue_length (v : XValue) (t : XType) (h : hasType v t = true) :
    (packValue v).length = packedSize t := by
  cases v with
  | bits w x =>
    cases t with
    | bits w2 =>
      simp only [hasType, Bool.and_eq_true, beq_iff_eq, decide_eq_true_eq] at h
      simp [packValue, packedSize, natToLEBytes_length, h.1]
    | tuple ts => simp [hasType] at h
    | array n t => simp [hasType] at h
  | tuple vs =>
    cases t with
    | bits w2 => simp [hasType] at h
    | tuple ts =>
      simp only [packValue, packedSize]
      exact packValueList_length vs ts (by simpa [hasType] using h)
    | array n t => simp [hasType] at h
  | array vs =>
    cases t with
    | bits w2 => simp [hasType] at h
    | tuple ts => simp [hasType] at h
    | array n t =>
      simp only [hasType, Bool.and_eq_true, beq_iff_eq] at h
      simp only [packValue, packedSize]
      rw [← h.1]
      exact packValueArray_length vs t h.2

/-- Tuple fields pack to the sum of their packed sizes. -/
theorem packValueList_length (vs : List XValue) (ts : List XType)
    (h : hasTypeList vs ts = true) :
    (packValueList vs).length = packedSizeList ts := by
  cases vs with
  | nil =>
    cases ts with
    | nil => simp [packValueList, packedSizeList]
    | cons t ts => simp [hasTypeList] at h
  | cons v vs =>
    cases ts with
    | nil => simp [hasTypeList] at h
    | cons t ts =>
      simp only [hasTypeList, Bool.and_eq_true] at h
      simp only [packValueList, packedSizeList, List.length_append]
      rw [packValue_length v t h.1, packValueList_length vs ts h.2]

/-- Array elements pack to a multiple of the element packed size. -/
theorem packValueArray_length (vs : List XValue) (t : XType)
    (h : hasTypeArray vs t = true) :
    (packValueList vs).length = vs.length * packedSize t := by
  cases vs with
  | nil => simp [packValueList]
  | cons v vs =>
    simp only [hasTypeArray, Bool.and_eq_true] at h
    simp only [packValueList, List.length_append, List.length_cons]
    rw [packValue_length v t h.1, packValueArray_length vs t h.2]
    ring

end

mutual

/-- Round trip: unpacking the packed bytes of a well-typed value (with any
trailing bytes) recovers the value. -/
theorem unpackValue_packValue (v : XValue) (t : XType) (rest : List Nat)
    (h : hasType v t = true) :
    unpackValue t (packValue v ++ rest) = v := by
  cases v with
  | bits w x =>
    cases t with
    | bits w2 =>
      simp only [hasType, Bool.and_eq_true, beq_iff_eq, decide_eq_true_eq] at h
      obtain ⟨rfl, hx⟩ := h
      simp only [unpackValue, packValue]
      rw [List.take_left' (natToLEBytes_length _ _), leBytesToNat_natToLEBytes]
      have hlt : x < 256 ^ ((w + 7) / 8) := lt_of_lt_of_le hx (two_pow_le_weight w)
      rw [Nat.mod_eq_of_lt hlt, Nat.mod_eq_of_lt hx]
    | tuple ts => simp [hasType] at h
    | array n t => simp [hasType] at h
  | tuple vs =>
    cases t with
    | bits w2 => simp [hasType] at h
    | array n t => simp [hasType] at h
    | tuple ts =>
      simp only [hasType] at h
      simp only [packValue, unpackValue]
      rw [unpackValueList_packValueList vs ts rest h]
  | array vs =>
    cases t with
    | bits w2 => simp [hasType] at h
    | tuple ts => simp [hasType] at h
    | array n t =>
      simp only [hasType, Bool.and_eq_true, beq_iff_eq] at h
      simp only [packValue, unpackValue]
      rw [← h.1, unpackValueArray_packValueList vs t rest h.2]

/-- Round trip for tuple fields. -/
theorem unpackValueList_packValueList (vs : List XValue) (ts : List XType)
    (rest : List Nat) (h : hasTypeList vs ts = true) :
    unpackValueList ts (packValueList vs ++ rest) = vs := by
  cases vs with
  | nil =>
    cases ts with
    | nil => simp [unpackValueList]
    | cons t ts => simp [hasTypeList] at h
  | cons v vs =>
    cases ts with
    | nil => simp [hasTypeList] at h
    | cons t ts =>
      simp only [hasTypeList, Bool.and_eq_true] at h
      simp only [packValueList, unpackValueList, List.append_assoc]
      rw [unpackValue_packValue v t _ h.1]
      rw [List.drop_left' (by rw [packValue_length v t h.1])]
      rw [unpackValueList_packValueList vs ts rest h.2]

/-- Round trip for array elements. -/
theorem unpackValueArray_packValueList (vs : List XValue) (t : XType)
    (rest : List Nat) (h : hasTypeArray vs t = true) :
    unpackValueArray vs.length t (packValueList vs ++ rest) = vs := by
  cases vs with
  | nil => simp [unpackValueArray]
  | cons v vs =>
    simp only [hasTypeArray, Bool.and_eq_true] at h
    simp only [packValueList, List.length_cons, unpackValueArray, List.append_assoc]
    rw [unpackValue_packValue v t _ h.1]
    rw [List.drop_left' (by rw [packValue_length v t h.1])]
    rw [unpackValueArray_packValueList vs t rest h.2]

end

/-! ### Arithmetic helpers -/

theorem le_roundUpToNearest (x y : Nat) (hy : 0 < y) :
    x ≤ roundUpToNearest x y := by
  unfold roundUpToNearest
  have h := Nat.lt_div_mul_add (a := x + y - 1) hy
  generalize (x + y - 1) / y * y = z at *
  omega

theorem roundUpToNearest_pos (x y : Nat) (hx : 0 < x) (hy : 0 < y) :
    0 < roundUpToNearest x y :=
  lt_of_lt_of_le hx (le_roundUpToNearest x y hy)

theorem dvd_roundUpToNearest (x y : Nat) : y ∣ roundUpToNearest x y :=
  Dvd.intro_left _ rfl

/-- A remainder is either below the modulus directly or shifted by it. -/
theorem mod_two_cases (x m : Nat) (h : x < 2 * m) :
    x % m = x ∨ (m ≤ x ∧ x % m = x - m) := by
  rcases lt_or_ge x m with h1 | h1
  · exact Or.inl (Nat.mod_eq_of_lt h1)
  · refine Or.inr ⟨h1, ?_⟩
    rw [Nat.mod_eq_sub_mod h1, Nat.mod_eq_of_lt (by omega)]

/-- `copyFwd` with a source region entirely below the destination region
behaves as a single simultaneous copy. -/
theorem copyFwd_of_le (buf : Nat → Nat) (srcOff dstOff n : Nat)
    (h : srcOff + n ≤ dstOff) (i : Nat) :
    copyFwd buf srcOff dstOff n i
      = if dstOff ≤ i ∧ i < dstOff + n then buf (srcOff + (i - dstOff))
        else buf i := by
  induction n generalizing i with
  | zero =>
    simp only [copyFwd]
    rw [if_neg (by omega)]
  | succ n ih =>
    have hn : srcOff + n ≤ dstOff := by omega
    simp only [copyFwd, Function.update_apply]
    rcases eq_or_ne i (dstOff + n) with rfl | hne
    · rw [if_pos rfl, ih hn (srcOff + n), if_neg (by omega),
        if_pos (by omega : dstOff ≤ dstOff + n ∧ dstOff + n < dstOff + (n + 1))]
      congr 1
      omega
    · rw [if_neg hne, ih hn i]
      by_cases hcase : dstOff ≤ i ∧ i < dstOff + n
      · rw [if_pos hcase, if_pos (by omega)]
      · rw [if_neg hcase, if_neg (by omega)]

/-! ### Derived well-formedness facts -/

theorem WFq.stride_dvd_max {q : ByteQueue} (h : WFq q) :
    q.allocated_element_size ∣ q.max_byte_count := by
  rw [h.max_eq]
  exact Dvd.intro_left _ rfl

theorem WFq.max_le_size {q : ByteQueue} (h : WFq q) :
    q.max_byte_count ≤ q.circular_buffer_size := by
  rw [h.max_eq]
  exact Nat.div_mul_le_self _ _

theorem WFq.stride_le_max {q : ByteQueue} (h : WFq q) :
    q.allocated_element_size ≤ q.max_byte_count := by
  rw [h.max_eq]
  calc q.allocated_element_size
      = 1 * q.allocated_element_size := (Nat.one_mul _).symm
    _ ≤ q.circular_buffer_size / q.allocated_element_size
          * q.allocated_element_size :=
        Nat.mul_le_mul_right _ ((Nat.one_le_div_iff h.stride_pos).2 h.stride_le)

theorem WFq.max_pos {q : ByteQueue} (h : WFq q) : 0 < q.max_byte_count :=
  lt_of_lt_of_le h.stride_pos h.stride_le_max

/-- A freshly constructed FIFO `ByteQueue` is well-formed. -/
theorem mkByteQueue_WFq (align kInit ces : Nat) (ha : 0 < align)
    (hc : 0 < ces) : WFq (mkByteQueue align kInit ces false) := by
  have hstride : 0 < roundUpToNearest ces align :=
    roundUpToNearest_pos ces align hc ha
  have hsize : roundUpToNearest ces align
      ≤ (mkByteQueue align kInit ces false).circular_buffer_size := by
    show roundUpToNearest ces align
        ≤ if 2 ^ Nat.clog 2 (roundUpToNearest ces align) > kInit
          then 2 ^ Nat.clog 2 (roundUpToNearest ces align) else kInit
    have hpow := Nat.le_pow_clog (b := 2) (by norm_num)
      (roundUpToNearest ces align)
    by_cases hgt : 2 ^ Nat.clog 2 (roundUpToNearest ces align) > kInit
    · rw [if_pos hgt]; exact hpow
    · rw [if_neg hgt]; omega
  refine ⟨rfl, hstride, hsize, rfl, ?_, ?_, ?_, ?_, ?_⟩
  · show 0 < _ / roundUpToNearest ces align * roundUpToNearest ces align
    calc 0 < roundUpToNearest ces align := hstride
      _ = 1 * roundUpToNearest ces align := (Nat.one_mul _).symm
      _ ≤ _ := Nat.mul_le_mul_right _ ((Nat.one_le_div_iff hstride).2 hsize)
  · exact Dvd.intro 0 rfl
  · exact Nat.zero_le _
  · exact Dvd.intro 0 rfl
  · simp [mkByteQueue]

/-- A freshly constructed `ByteQueue` holds no elements. -/
theorem mkByteQueue_contents (align kInit ces : Nat) (isv : Bool) :
    (mkByteQueue align kInit ces isv).contents = [] := by
  simp [mkByteQueue, ByteQueue.contents, ByteQueue.size]

/-- Between two distinct stride-aligned offsets, stride-sized blocks are
disjoint. -/
theorem block_disjoint {a p w : Nat} (hp : a ∣ p) (hw : a ∣ w) (hne : p ≠ w)
    (i : Nat) (hi : i < a) : ¬ (w ≤ p + i ∧ p + i < w + a) := by
  obtain ⟨pc, rfl⟩ := hp
  obtain ⟨wc, rfl⟩ := hw
  rintro ⟨h1, h2⟩
  rcases Nat.lt_trichotomy pc wc with hlt | heq | hgt
  · have hle : a * pc + a ≤ a * wc := by
      calc a * pc + a = a * (pc + 1) := by ring
        _ ≤ a * wc := Nat.mul_le_mul_left a hlt
    omega
  · exact hne (by rw [heq])
  · have hle : a * wc + a ≤ a * pc := by
      calc a * wc + a = a * (wc + 1) := by ring
        _ ≤ a * pc := Nat.mul_le_mul_left a hgt
    omega

/-- A stride-aligned offset strictly below a stride-aligned bound leaves
room for a whole stride. -/
theorem dvd_lt_add_le {a p m : Nat} (hp : a ∣ p) (hm : a ∣ m) (h : p < m) :
    p + a ≤ m := by
  obtain ⟨pc, rfl⟩ := hp
  obtain ⟨mc, rfl⟩ := hm
  have hlt : pc < mc := Nat.lt_of_mul_lt_mul_left h
  calc a * pc + a = a * (pc + 1) := by ring
    _ ≤ a * mc := Nat.mul_le_mul_left a hlt

/-- Element-block positions in a well-formed store are stride-aligned and
whole blocks fit below the usable capacity. -/
theorem elem_pos_facts {q : ByteQueue} (h : WFq q) (x : Nat)
    (hx : q.allocated_element_size ∣ x) :
    q.allocated_element_size ∣ x % q.max_byte_count
    ∧ x % q.max_byte_count + q.allocated_element_size ≤ q.max_byte_count := by
  have hdvd : q.allocated_element_size ∣ x % q.max_byte_count :=
    (Nat.dvd_mod_iff h.stride_dvd_max).2 hx
  refine ⟨hdvd, dvd_lt_add_le hdvd h.stride_dvd_max (Nat.mod_lt _ h.max_pos)⟩

/-- For `k` below the element count, the whole `k`-th block precedes
`bytes_used` bytes worth of elements. -/
theorem mul_stride_lt_used {q : ByteQueue} (h : WFq q) (k : Nat)
    (hk : k < q.bytes_used / q.allocated_element_size) :
    k * q.allocated_element_size + q.allocated_element_size ≤ q.bytes_used := by
  obtain ⟨uc, hu⟩ := h.used_dvd
  rw [hu, Nat.mul_div_cancel_left uc h.stride_pos] at hk
  rw [hu]
  calc k * q.allocated_element_size + q.allocated_element_size
      = (k + 1) * q.allocated_element_size := by ring
    _ ≤ uc * q.allocated_element_size :=
        Nat.mul_le_mul_right _ (by omega)
    _ = q.allocated_element_size * uc := Nat.mul_comm _ _

/-- `Write` on a well-formed non-full FIFO store appends one element,
leaving the earlier contents and the read cursor unchanged. -/
theorem Write_not_full {q : ByteQueue} (h : WFq q) (data : Nat → Nat)
    (hnf : q.bytes_used + q.allocated_element_size ≤ q.max_byte_count) :
    WFq (q.Write data)
    ∧ (q.Write data).contents
        = q.contents ++ [(List.range q.allocated_element_size).map data]
    ∧ (q.Write data).bytes_used
        = q.bytes_used + q.allocated_element_size
    ∧ (q.Write data).read_index = q.read_index
    ∧ (q.Write data).allocated_element_size = q.allocated_element_size
    ∧ (q.Write data).max_byte_count = q.max_byte_count
    ∧ (q.Write data).circular_buffer_size = q.circular_buffer_size := by
  have ha := h.stride_pos
  have hm := h.max_pos
  have hq' : q.Write data
      = { q with
          circular_buffer := memcpyAt q.circular_buffer q.write_index data
            q.allocated_element_size
          bytes_used := q.bytes_used + q.allocated_element_size
          write_index :=
            if q.write_index + q.allocated_element_size = q.max_byte_count
            then 0 else q.write_index + q.allocated_element_size } := by
    simp only [ByteQueue.Write, h.not_single, Bool.false_eq_true, if_false,
      if_neg (by omega : ¬ (q.bytes_used + q.allocated_element_size
        > q.max_byte_count))]
  have hwpos := elem_pos_facts h (q.read_index + q.bytes_used)
    (Nat.dvd_add h.read_dvd h.used_dvd)
  have hwa : q.write_index + q.allocated_element_size ≤ q.max_byte_count := by
    rw [h.write_eq]; exact hwpos.2
  have hwdvd : q.allocated_element_size ∣ q.write_index := by
    rw [h.write_eq]; exact hwpos.1
  have hwf : WFq (q.Write data) := by
    rw [hq']
    refine ⟨h.not_single, ha, h.stride_le, h.max_eq, h.read_lt, h.read_dvd,
      hnf, Nat.dvd_add h.used_dvd dvd_rfl, ?_⟩
    show (if q.write_index + q.allocated_element_size = q.max_byte_count
        then 0 else q.write_index + q.allocated_element_size)
      = (q.read_index + (q.bytes_used + q.allocated_element_size))
          % q.max_byte_count
    have hmod : (q.read_index + (q.bytes_used + q.allocated_element_size))
        % q.max_byte_count
        = (q.write_index + q.allocated_element_size) % q.max_byte_count := by
      conv_rhs => rw [h.write_eq]
      rw [Nat.mod_add_mod, ← Nat.add_assoc]
    rw [hmod]
    by_cases hcase : q.write_index + q.allocated_element_size
        = q.max_byte_count
    · rw [if_pos hcase, hcase, Nat.mod_self]
    · rw [if_neg hcase, Nat.mod_eq_of_lt (by omega)]
  refine ⟨hwf, ?_, by rw [hq'], by rw [hq'], by rw [hq'], by rw [hq'],
    by rw [hq']⟩
  -- contents
  have hsize : (q.Write data).size = q.size + 1 := by
    rw [hq']
    show (q.bytes_used + q.allocated_element_size) / q.allocated_element_size
      = q.bytes_used / q.allocated_element_size + 1
    rw [Nat.add_div_right _ ha]
  rw [ByteQueue.contents, hsize, List.range_succ, List.map_append,
    List.map_singleton, ByteQueue.contents]
  congr 1
  · -- old elements unchanged
    apply List.map_congr_left
    intro k hk
    rw [List.mem_range] at hk
    have hka := mul_stride_lt_used h k hk
    have hppos := elem_pos_facts h
      (q.read_index + k * q.allocated_element_size)
      (Nat.dvd_add h.read_dvd (Dvd.intro_left k rfl))
    have hpne : (q.read_index + k * q.allocated_element_size)
        % q.max_byte_count ≠ q.write_index := by
      have hr := h.read_lt
      have hu := h.used_le
      rw [h.write_eq]
      have h1 := mod_two_cases (q.read_index + k * q.allocated_element_size)
        q.max_byte_count (by omega)
      have h2 := mod_two_cases (q.read_index + q.bytes_used)
        q.max_byte_count (by omega)
      rcases h1 with h1 | ⟨hle1, h1⟩ <;> rcases h2 with h2 | ⟨hle2, h2⟩ <;>
        rw [h1, h2] <;> omega
    show ByteQueue.elemAt _ k = ByteQueue.elemAt _ k
    rw [hq']
    simp only [ByteQueue.elemAt]
    apply List.map_congr_left
    intro i hi
    rw [List.mem_range] at hi
    show memcpyAt q.circular_buffer q.write_index data
        q.allocated_element_size _ = _
    rw [memcpyAt, if_neg (block_disjoint hppos.1 hwdvd hpne i hi)]
  · -- appended element
    have helem : (q.Write data).elemAt q.size
        = (List.range q.allocated_element_size).map data := by
      rw [hq']
      simp only [ByteQueue.elemAt]
      apply List.map_congr_left
      intro i hi
      rw [List.mem_range] at hi
      have hpos_eq : (q.read_index
          + q.size * q.allocated_element_size) % q.max_byte_count
          = q.write_index := by
        obtain ⟨uc, hu⟩ := h.used_dvd
        rw [h.write_eq]
        congr 1
        rw [ByteQueue.size, hu, Nat.mul_div_cancel_left uc h.stride_pos,
          Nat.mul_comm]
      show memcpyAt q.circular_buffer q.write_index data
          q.allocated_element_size _ = data i
      rw [memcpyAt, hpos_eq, if_pos (by omega)]
      congr 1
      omega
    rw [helem]

/-- `Resize` doubles the buffer, keeps the stride, the cursors and the
byte count, leaves room for at least one more element, and — when invoked
on a full store, the only way `Write` invokes it — relocates the wrapped
prefix so that the unread contents are unchanged. -/
theorem Resize_spec {q : ByteQueue} (h : WFq q) :
    WFq q.Resize
    ∧ (q.bytes_used = q.max_byte_count → q.Resize.contents = q.contents)
    ∧ q.Resize.bytes_used = q.bytes_used
    ∧ q.Resize.read_index = q.read_index
    ∧ q.Resize.allocated_element_size = q.allocated_element_size
    ∧ q.bytes_used + q.allocated_element_size ≤ q.Resize.max_byte_count := by
  have ha := h.stride_pos
  have hr := h.read_lt
  have hu := h.used_le
  have hs := h.stride_le
  have hmp := h.max_pos
  have hms := h.max_le_size
  have h2m : 2 * q.max_byte_count
      ≤ q.circular_buffer_size * 2 / q.allocated_element_size
        * q.allocated_element_size := by
    have hdiv : 2 * (q.circular_buffer_size / q.allocated_element_size)
        ≤ q.circular_buffer_size * 2 / q.allocated_element_size := by
      rw [Nat.le_div_iff_mul_le ha]
      have hsm := Nat.div_mul_le_self q.circular_buffer_size
        q.allocated_element_size
      calc 2 * (q.circular_buffer_size / q.allocated_element_size)
            * q.allocated_element_size
          = 2 * (q.circular_buffer_size / q.allocated_element_size
            * q.allocated_element_size) := by ring
        _ ≤ q.circular_buffer_size * 2 := by omega
    calc 2 * q.max_byte_count
        = 2 * (q.circular_buffer_size / q.allocated_element_size)
          * q.allocated_element_size := by rw [h.max_eq]; ring
      _ ≤ q.circular_buffer_size * 2 / q.allocated_element_size
          * q.allocated_element_size := Nat.mul_le_mul_right _ hdiv
  have ham := h.stride_le_max
  have hwi : q.bytes_used + q.read_index
      < q.circular_buffer_size * 2 / q.allocated_element_size
        * q.allocated_element_size := by omega
  have hwf : WFq q.Resize := by
    refine ⟨h.not_single, ha, ?_, rfl, ?_, h.read_dvd, ?_, h.used_dvd, ?_⟩
    · show q.allocated_element_size ≤ q.circular_buffer_size * 2
      omega
    · show q.read_index < q.circular_buffer_size * 2
        / q.allocated_element_size * q.allocated_element_size
      omega
    · show q.bytes_used ≤ q.circular_buffer_size * 2
        / q.allocated_element_size * q.allocated_element_size
      omega
    · show (if q.bytes_used + q.read_index
          = q.circular_buffer_size * 2 / q.allocated_element_size
            * q.allocated_element_size
          then 0 else q.bytes_used + q.read_index)
        = (q.read_index + q.bytes_used)
            % (q.circular_buffer_size * 2 / q.allocated_element_size
              * q.allocated_element_size)
      rw [if_neg (by omega), Nat.mod_eq_of_lt (by omega), Nat.add_comm]
  refine ⟨hwf, ?_, rfl, rfl, rfl, ?_⟩
  swap
  · show q.bytes_used + q.allocated_element_size
      ≤ q.circular_buffer_size * 2 / q.allocated_element_size
        * q.allocated_element_size
    omega
  intro hfull
  -- contents preserved on a full store
  show (List.range q.Resize.size).map q.Resize.elemAt
    = (List.range q.size).map q.elemAt
  have hsz : q.Resize.size = q.size := rfl
  rw [hsz]
  apply List.map_congr_left
  intro k hk
  rw [List.mem_range] at hk
  have hka := mul_stride_lt_used h k hk
  simp only [ByteQueue.elemAt, ByteQueue.Resize]
  apply List.map_congr_left
  intro i hi
  rw [List.mem_range] at hi
  have hmod' : (q.read_index + k * q.allocated_element_size)
      % (q.circular_buffer_size * 2 / q.allocated_element_size
        * q.allocated_element_size)
      = q.read_index + k * q.allocated_element_size :=
    Nat.mod_eq_of_lt (by omega)
  rw [hmod']
  have hdvd_rka : q.allocated_element_size
      ∣ q.read_index + k * q.allocated_element_size :=
    Nat.dvd_add h.read_dvd (Dvd.intro_left k rfl)
  rcases Nat.lt_or_ge (q.read_index + k * q.allocated_element_size)
      q.max_byte_count with hlt | hge
  · -- block entirely below the old usable capacity: bytes untouched
    rw [Nat.mod_eq_of_lt hlt]
    have hblock := dvd_lt_add_le hdvd_rka h.stride_dvd_max hlt
    by_cases hr0 : q.read_index ≠ 0
    · rw [if_pos hr0,
        copyFwd_of_le _ _ _ _ (by omega) _,
        if_neg (by rw [hfull]; omega), grownBuffer, if_pos (by omega)]
    · rw [if_neg hr0, grownBuffer, if_pos (by omega)]
  · -- block in the wrapped region: relocated bytes
    have hmlt := Nat.mod_lt (q.read_index + k * q.allocated_element_size)
      (y := q.max_byte_count) hmp
    have hwrap : (q.read_index + k * q.allocated_element_size)
        % q.max_byte_count
        = q.read_index + k * q.allocated_element_size - q.max_byte_count := by
      rcases mod_two_cases (q.read_index + k * q.allocated_element_size)
        q.max_byte_count (by omega) with h1 | ⟨_, h1⟩
      · omega
      · exact h1
    rw [hwrap]
    have hr0 : q.read_index ≠ 0 := by omega
    rw [if_pos hr0, copyFwd_of_le _ _ _ _ (by omega) _,
      if_pos (by rw [hfull]; constructor <;> omega), grownBuffer,
      if_pos (by omega)]
    congr 1
    rw [hfull]
    omega

/-- On a full store, `Write` behaves exactly as `Write` after `Resize`. -/
theorem Write_full_eq {q : ByteQueue} (h : WFq q) (data : Nat → Nat)
    (hfull : q.bytes_used + q.allocated_element_size > q.max_byte_count) :
    q.Write data = q.Resize.Write data := by
  obtain ⟨hwf', _, hu', _, ha', hroom⟩ := Resize_spec h
  simp only [ByteQueue.Write, h.not_single, hwf'.not_single,
    Bool.false_eq_true, if_false, if_pos hfull,
    if_neg (by rw [hu', ha']; omega :
      ¬ (q.Resize.bytes_used + q.Resize.allocated_element_size
        > q.Resize.max_byte_count))]

/-- `Write` on any well-formed FIFO store appends exactly one element
(doubling capacity first when full) and never fails. -/
theorem Write_spec {q : ByteQueue} (h : WFq q) (data : Nat → Nat) :
    WFq (q.Write data)
    ∧ (q.Write data).contents
        = q.contents ++ [(List.range q.allocated_element_size).map data]
    ∧ (q.Write data).bytes_used = q.bytes_used + q.allocated_element_size
    ∧ (q.Write data).allocated_element_size = q.allocated_element_size := by
  by_cases hfull : q.bytes_used + q.allocated_element_size
      > q.max_byte_count
  · have hu : q.bytes_used = q.max_byte_count := by
      rcases Nat.lt_or_ge q.bytes_used q.max_byte_count with hlt | hge
      · have := dvd_lt_add_le h.used_dvd h.stride_dvd_max hlt
        omega
      · exact le_antisymm h.used_le hge
    obtain ⟨hwf', hcont', hu', hr', ha', hroom⟩ := Resize_spec h
    rw [Write_full_eq h data hfull]
    obtain ⟨hw1, hw2, hw3, hw4, hw5, hw6, hw7⟩ :=
      Write_not_full hwf' data (by rw [hu', ha']; exact hroom)
    refine ⟨hw1, ?_, ?_, ?_⟩
    · rw [hw2, hcont' hu, ha']
    · rw [hw3, hu', ha']
    · rw [hw5, ha']
  · obtain ⟨hw1, hw2, hw3, hw4, hw5, hw6, hw7⟩ :=
      Write_not_full h data (by omega)
    exact ⟨hw1, hw2, hw3, hw5⟩

/-- `Read` on an empty store reports no data and leaves both the output
buffer and the queue state untouched. -/
theorem Read_empty {q : ByteQueue} (hempty : q.bytes_used = 0)
    (out : Nat → Nat) : q.Read out = (false, out, q) := by
  simp [ByteQueue.Read, hempty]

/-- `Read` on a non-empty well-formed FIFO store succeeds, copies the
oldest element to the output buffer, and pops it from the contents. -/
theorem Read_some {q : ByteQueue} (h : WFq q) (hne : q.bytes_used ≠ 0)
    (out : Nat → Nat) :
    (q.Read out).1 = true
    ∧ (∀ i < q.allocated_element_size,
        (q.Read out).2.1 i = q.circular_buffer (q.read_index + i))
    ∧ WFq (q.Read out).2.2
    ∧ q.contents = q.elemAt 0 :: (q.Read out).2.2.contents
    ∧ (q.Read out).2.2.bytes_used
        = q.bytes_used - q.allocated_element_size
    ∧ (q.Read out).2.2.allocated_element_size = q.allocated_element_size
    ∧ q.elemAt 0 = (List.range q.allocated_element_size).map
        (fun i => q.circular_buffer (q.read_index + i))
    ∧ (q.Read out).2.2.size = q.size - 1 := by
  have ha := h.stride_pos
  have hau : q.allocated_element_size ≤ q.bytes_used :=
    Nat.le_of_dvd (Nat.pos_of_ne_zero hne) h.used_dvd
  have hra : q.read_index + q.allocated_element_size ≤ q.max_byte_count :=
    dvd_lt_add_le h.read_dvd h.stride_dvd_max h.read_lt
  have hq' : q.Read out
      = (true,
         memcpyAt out 0 (fun i => q.circular_buffer (q.read_index + i))
           q.allocated_element_size,
         { q with
           bytes_used := q.bytes_used - q.allocated_element_size
           read_index :=
             if q.read_index + q.allocated_element_size = q.max_byte_count
             then 0
             else q.read_index + q.allocated_element_size }) := by
    simp only [ByteQueue.Read, h.not_single, Bool.false_eq_true, if_false,
      if_neg hne]
  have hr'_eq : (if q.read_index + q.allocated_element_size
        = q.max_byte_count
      then 0 else q.read_index + q.allocated_element_size)
      = (q.read_index + q.allocated_element_size) % q.max_byte_count := by
    by_cases hc : q.read_index + q.allocated_element_size = q.max_byte_count
    · rw [if_pos hc, hc, Nat.mod_self]
    · rw [if_neg hc, Nat.mod_eq_of_lt (by omega)]
  have hwf' : WFq (q.Read out).2.2 := by
    rw [hq']
    refine ⟨h.not_single, ha, h.stride_le, h.max_eq, ?_, ?_, ?_, ?_, ?_⟩
    · show (if q.read_index + q.allocated_element_size = q.max_byte_count
          then 0 else q.read_index + q.allocated_element_size)
        < q.max_byte_count
      rw [hr'_eq]
      exact Nat.mod_lt _ h.max_pos
    · show q.allocated_element_size
        ∣ (if q.read_index + q.allocated_element_size = q.max_byte_count
          then 0 else q.read_index + q.allocated_element_size)
      rw [hr'_eq]
      exact (Nat.dvd_mod_iff h.stride_dvd_max).2
        (Nat.dvd_add h.read_dvd dvd_rfl)
    · show q.bytes_used - q.allocated_element_size ≤ q.max_byte_count
      have := h.used_le
      omega
    · exact Nat.dvd_sub' h.used_dvd dvd_rfl
    · show q.write_index
        = ((if q.read_index + q.allocated_element_size = q.max_byte_count
            then 0 else q.read_index + q.allocated_element_size)
          + (q.bytes_used - q.allocated_element_size)) % q.max_byte_count
      rw [hr'_eq, Nat.mod_add_mod, h.write_eq]
      congr 1
      omega
  have helem : ∀ k, (q.Read out).2.2.elemAt k = q.elemAt (k + 1) := by
    intro k
    rw [hq']
    simp only [ByteQueue.elemAt]
    have harg : ((if q.read_index + q.allocated_element_size
          = q.max_byte_count
        then 0 else q.read_index + q.allocated_element_size)
        + k * q.allocated_element_size) % q.max_byte_count
        = (q.read_index + (k + 1) * q.allocated_element_size)
            % q.max_byte_count := by
      rw [hr'_eq, Nat.mod_add_mod]
      congr 1
      ring
    simp only [harg]
  obtain ⟨uc, huc⟩ := h.used_dvd
  have hucpos : 0 < uc := by
    rcases Nat.eq_zero_or_pos uc with rfl | hpos
    · rw [Nat.mul_zero] at huc; exact absurd huc hne
    · exact hpos
  have hszq : q.size = uc := by
    rw [ByteQueue.size, huc, Nat.mul_div_cancel_left _ ha]
  have hsub : q.allocated_element_size * uc - q.allocated_element_size
      = q.allocated_element_size * (uc - 1) := by
    cases uc with
    | zero => simp
    | succ n => rw [Nat.succ_sub_one, Nat.mul_succ]; omega
  have hszq' : (q.Read out).2.2.size = uc - 1 := by
    rw [hq']
    show (q.bytes_used - q.allocated_element_size)
        / q.allocated_element_size = uc - 1
    rw [huc, hsub, Nat.mul_div_cancel_left _ ha]
  have hcontents : q.contents = q.elemAt 0 :: (q.Read out).2.2.contents := by
    rw [ByteQueue.contents, ByteQueue.contents, hszq, hszq']
    conv_lhs => rw [show uc = (uc - 1) + 1 by omega, List.range_succ_eq_map,
      List.map_cons]
    congr 1
    rw [List.map_map]
    apply List.map_congr_left
    intro k hk
    show q.elemAt (Nat.succ k) = (q.Read out).2.2.elemAt k
    rw [helem k]
  refine ⟨by rw [hq'], ?_, hwf', hcontents, by rw [hq'], by rw [hq'], ?_,
    by rw [hszq', hszq]⟩
  · intro i hi
    rw [hq']
    show memcpyAt out 0 (fun i => q.circular_buffer (q.read_index + i))
        q.allocated_element_size i = _
    rw [memcpyAt, if_pos (by omega)]
    simp
  · rw [ByteQueue.elemAt]
    apply List.map_congr_left
    intro i hi
    rw [Nat.zero_mul, Nat.add_zero, Nat.mod_eq_of_lt h.read_lt]

/-! ### Harness lemmas -/

theorem range_map_getD (l : List Nat) :
    (List.range l.length).map (fun i => l.getD i 0) = l := by
  apply List.ext_getElem
  · simp
  · intro i h1 h2
    simp [List.getD_eq_getElem, h2]

/-- Repeated writes on a well-formed FIFO store append all elements in
order. -/
theorem writeList_spec {q : ByteQueue} (h : WFq q)
    (ds : List (Nat → Nat)) :
    WFq (writeList q ds)
    ∧ (writeList q ds).contents = q.contents
        ++ ds.map (fun d => (List.range q.allocated_element_size).map d)
    ∧ (writeList q ds).allocated_element_size
        = q.allocated_element_size := by
  induction ds generalizing q with
  | nil => exact ⟨h, by simp [writeList], rfl⟩
  | cons d ds ih =>
    obtain ⟨hw1, hw2, hw3, hw4⟩ := Write_spec h d
    obtain ⟨ih1, ih2, ih3⟩ := ih hw1
    have hstep : writeList q (d :: ds) = writeList (q.Write d) ds := rfl
    rw [hstep]
    refine ⟨ih1, ?_, by rw [ih3, hw4]⟩
    rw [ih2, hw2, hw4]
    simp [List.append_assoc]

/-- Reading out exactly the element count of a well-formed FIFO store
extracts its contents, oldest first, and empties the store. -/
theorem readAll_spec {q : ByteQueue} (h : WFq q) :
    ∀ n, q.size = n →
    (readAll q n).1 = q.contents ∧ (readAll q n).2.bytes_used = 0 := by
  intro n
  induction n generalizing q with
  | zero =>
    intro hsz
    have hu : q.bytes_used = 0 := by
      by_contra hne
      have := Nat.le_of_dvd (Nat.pos_of_ne_zero hne) h.used_dvd
      have : 1 ≤ q.bytes_used / q.allocated_element_size :=
        (Nat.one_le_div_iff h.stride_pos).2 this
      rw [ByteQueue.size] at hsz
      omega
    constructor
    · show ([] : List (List Nat)) = q.contents
      rw [ByteQueue.contents, hsz]
      rfl
    · exact hu
  | succ n ih =>
    intro hsz
    have hne : q.bytes_used ≠ 0 := by
      intro h0
      rw [ByteQueue.size, h0, Nat.zero_div] at hsz
      exact absurd hsz.symm (Nat.succ_ne_zero n)
    obtain ⟨_, hout, hwf', hcont, _, _, helem0, hsz'⟩ :=
      Read_some h hne (fun _ => 0)
    have hsz'' : (q.Read (fun _ => 0)).2.2.size = n := by
      rw [hsz', hsz]
      rfl
    obtain ⟨ihc, ihb⟩ := ih hwf' hsz''
    constructor
    · show (List.range q.allocated_element_size).map
          (q.Read (fun _ => 0)).2.1
          :: (readAll (q.Read (fun _ => 0)).2.2 n).1 = q.contents
      rw [ihc, hcont]
      congr 1
      rw [helem0]
      apply List.map_congr_left
      intro i hi
      rw [List.mem_range] at hi
      exact hout i hi
    · exact ihb

/-! ### Scheduler lemmas -/

/-- Structure of one inner-loop fold of `Tick`: the trace extends by, in
declaration order, exactly the procs not yet complete; the pass flag
accumulates their reported progress; completions are recorded and
stable. -/
theorem foldl_visit_spec {P C G : Type} [DecidableEq P]
    (step : P → C → G → C × G × TickResult) (procs : List P) :
    ∀ s : TickState P C G, procs.Nodup →
    ∃ tnew : List (P × TickResult),
      (procs.foldl (tickVisit step) s).trace = s.trace ++ tnew
      ∧ tnew.map Prod.fst
          = procs.filter (fun p => decide (¬ p ∈ s.completed_procs))
      ∧ (procs.foldl (tickVisit step) s).progress_made
          = (s.progress_made || tnew.any (fun pr => pr.2.progress_made))
      ∧ (∀ p, p ∈ s.completed_procs
          → p ∈ (procs.foldl (tickVisit step) s).completed_procs)
      ∧ (∀ p, p ∈ (procs.foldl (tickVisit step) s).completed_procs
          → p ∈ s.completed_procs ∨ p ∈ procs)
      ∧ (∀ p r, (p, r) ∈ tnew → r.tick_complete = true
          → p ∈ (procs.foldl (tickVisit step) s).completed_procs) := by
  induction procs with
  | nil =>
    intro s _
    exact ⟨[], by simp, by simp, by simp, fun p hp => hp,
      fun p hp => Or.inl hp, by simp⟩
  | cons p ps ih =>
    intro s hnd
    rw [List.nodup_cons] at hnd
    obtain ⟨hp_not, hnd'⟩ := hnd
    rw [List.foldl_cons]
    by_cases hmem : p ∈ s.completed_procs
    · have hskip : tickVisit step s p = s := by
        rw [tickVisit, if_pos hmem]
      rw [hskip]
      obtain ⟨tnew, h1, h2, h3, h4, h5, h6⟩ := ih s hnd'
      refine ⟨tnew, h1, ?_, h3, h4,
        fun q hq => (h5 q hq).imp id (List.mem_cons_of_mem p), h6⟩
      rw [h2, List.filter_cons_of_neg (by simp [hmem])]
    · have e_tr : (tickVisit step s p).trace
          = s.trace ++ [(p, (step p (s.continuations p) s.global).2.2)] := by
        rw [tickVisit, if_neg hmem]
      have e_pr : (tickVisit step s p).progress_made
          = (s.progress_made
            || (step p (s.continuations p) s.global).2.2.progress_made) := by
        rw [tickVisit, if_neg hmem]
      have e_cm : (tickVisit step s p).completed_procs
          = (if (step p (s.continuations p) s.global).2.2.tick_complete
            then s.completed_procs ++ [p] else s.completed_procs) := by
        rw [tickVisit, if_neg hmem]
      have hcomp₁ : ∀ q, q ≠ p →
          ((q ∈ (tickVisit step s p).completed_procs)
            ↔ q ∈ s.completed_procs) := by
        intro q hq
        rw [e_cm]
        by_cases hc : (step p (s.continuations p) s.global).2.2.tick_complete
        · rw [if_pos hc]
          simp [hq]
        · rw [if_neg hc]
      have hinto : ∀ q, q ∈ s.completed_procs
          → q ∈ (tickVisit step s p).completed_procs := by
        intro q hq
        rw [e_cm]
        by_cases hc : (step p (s.continuations p) s.global).2.2.tick_complete
        · rw [if_pos hc]
          exact List.mem_append_left _ hq
        · rw [if_neg hc]
          exact hq
      obtain ⟨tnew, h1, h2, h3, h4, h5, h6⟩ := ih (tickVisit step s p) hnd'
      refine ⟨(p, (step p (s.continuations p) s.global).2.2) :: tnew,
        ?_, ?_, ?_, ?_, ?_, ?_⟩
      · rw [h1, e_tr]
        simp
      · rw [List.map_cons, h2,
          List.filter_cons_of_pos (by simp [hmem])]
        congr 1
        apply List.filter_congr
        intro q hq
        have hqp : q ≠ p := fun he => hp_not (he ▸ hq)
        simp only [decide_eq_decide]
        exact not_congr (hcomp₁ q hqp)
      · rw [h3, e_pr]
        simp [Bool.or_assoc]
      · intro q hq
        exact h4 q (hinto q hq)
      · intro q hq
        rcases h5 q hq with hin | hin
        · rw [e_cm] at hin
          by_cases hc : (step p (s.continuations p) s.global).2.2.tick_complete
          · rw [if_pos hc] at hin
            rcases List.mem_append.1 hin with hin | hin
            · exact Or.inl hin
            · rw [List.mem_singleton] at hin
              exact Or.inr (hin ▸ List.mem_cons_self p ps)
          · rw [if_neg hc] at hin
            exact Or.inl hin
        · exact Or.inr (List.mem_cons_of_mem p hin)
      · intro q r hqr hrc
        rcases List.mem_cons.1 hqr with hqr | hqr
        · rw [Prod.mk.injEq] at hqr
          obtain ⟨rfl, rfl⟩ := hqr
          apply h4
          rw [e_cm, if_pos hrc]
          exact List.mem_append_right _ (List.mem_singleton.2 rfl)
        · exact h6 q r hqr hrc

/-- `tickPass` structure, transferred from the fold (the pass starts from
the same completed set and trace, with the pass flag cleared). -/
theorem tickPass_spec {P C G : Type} [DecidableEq P]
    (step : P → C → G → C × G × TickResult) (procs : List P)
    (s : TickState P C G) (hnd : procs.Nodup) :
    ∃ tnew : List (P × TickResult),
      (tickPass step procs s).trace = s.trace ++ tnew
      ∧ tnew.map Prod.fst
          = procs.filter (fun p => decide (¬ p ∈ s.completed_procs))
      ∧ (tickPass step procs s).progress_made
          = tnew.any (fun pr => pr.2.progress_made)
      ∧ (∀ p, p ∈ s.completed_procs
          → p ∈ (tickPass step procs s).completed_procs)
      ∧ (∀ p, p ∈ (tickPass step procs s).completed_procs
          → p ∈ s.completed_procs ∨ p ∈ procs)
      ∧ (∀ p r, (p, r) ∈ tnew → r.tick_complete = true
          → p ∈ (tickPass step procs s).completed_procs) := by
  obtain ⟨tnew, h1, h2, h3, h4, h5, h6⟩ :=
    foldl_visit_spec step procs { s with progress_made := false } hnd
  refine ⟨tnew, h1, h2, ?_, h4, h5, h6⟩
  show (procs.foldl (tickVisit step)
    { s with progress_made := false }).progress_made = _
  rw [h3]
  simp

/-- Visiting procs that have all completed changes nothing. -/
theorem foldl_visit_all_complete {P C G : Type} [DecidableEq P]
    (step : P → C → G → C × G × TickResult) (procs : List P) :
    ∀ s : TickState P C G, (∀ p ∈ procs, p ∈ s.completed_procs) →
    procs.foldl (tickVisit step) s = s := by
  induction procs with
  | nil =>
    intro s _
    rfl
  | cons p ps ih =>
    intro s hall
    rw [List.foldl_cons]
    have hskip : tickVisit step s p = s := by
      rw [tickVisit, if_pos (hall p (List.mem_cons_self p ps))]
    rw [hskip]
    exact ih s (fun q hq => hall q (List.mem_cons_of_mem p hq))

/-- When every proc has already completed, a pass invokes nobody and only
clears the pass flag. -/
theorem tickPass_all_complete {P C G : Type} [DecidableEq P]
    (step : P → C → G → C × G × TickResult) (procs : List P)
    (s : TickState P C G) (hall : ∀ p ∈ procs, p ∈ s.completed_procs) :
    tickPass step procs s = { s with progress_made := false } :=
  foldl_visit_all_complete step procs { s with progress_made := false } hall

/-- Convergence facts of the tick loop: the final pass made no progress;
the trace only extends, never invoking procs already complete at entry;
completion is stable. -/
theorem tickLoop_spec {P C G : Type} [DecidableEq P]
    (step : P → C → G → C × G × TickResult) (procs : List P)
    (hnd : procs.Nodup) :
    ∀ fuel (s s' : TickState P C G),
      tickLoop step procs fuel s = some s' →
      s'.progress_made = false
      ∧ (∃ text, s'.trace = s.trace ++ text
          ∧ ∀ p, p ∈ s.completed_procs → ∀ e ∈ text, e.1 ≠ p)
      ∧ (∀ p, p ∈ s.completed_procs → p ∈ s'.completed_procs) := by
  intro fuel
  induction fuel with
  | zero =>
    intro s s' h
    simp [tickLoop] at h
  | succ fuel ih =>
    intro s s' h
    rw [tickLoop] at h
    obtain ⟨tnew, h1, h2, h3, h4, h5, h6⟩ := tickPass_spec step procs s hnd
    by_cases hprog : (tickPass step procs s).progress_made
    · rw [if_pos hprog] at h
      obtain ⟨hp', ⟨text, htr, hex⟩, hmono⟩ := ih _ _ h
      refine ⟨hp', ⟨tnew ++ text, ?_, ?_⟩, fun p hp => hmono p (h4 p hp)⟩
      · rw [htr, h1, List.append_assoc]
      · intro p hpc e he
        rcases List.mem_append.1 he with he | he
        · have hfst : e.1 ∈ tnew.map Prod.fst := List.mem_map_of_mem _ he
          rw [h2] at hfst
          have hmem := List.of_mem_filter hfst
          rw [decide_eq_true_eq] at hmem
          intro hep
          exact hmem (hep ▸ hpc)
        · exact hex p (h4 p hpc) e he
    · rw [if_neg hprog] at h
      obtain rfl : tickPass step procs s = s' := Option.some.inj h
      refine ⟨Bool.not_eq_true _ ▸ Bool.of_not_eq_true hprog, ⟨tnew, h1, ?_⟩,
        h4⟩
      intro p hpc e he
      have hfst : e.1 ∈ tnew.map Prod.fst := List.mem_map_of_mem _ he
      rw [h2] at hfst
      have hmem := List.of_mem_filter hfst
      rw [decide_eq_true_eq] at hmem
      intro hep
      exact hmem (hep ▸ hpc)

/-- When every proc has completed, the loop stops after one vacuous
pass. -/
theorem tickLoop_all_complete {P C G : Type} [DecidableEq P]
    (step : P → C → G → C × G × TickResult) (procs : List P) (fuel : Nat)
    (s : TickState P C G) (hall : ∀ p ∈ procs, p ∈ s.completed_procs) :
    tickLoop step procs (fuel + 1) s
      = some { s with progress_made := false } := by
  rw [tickLoop, tickPass_all_complete step procs s hall]
  simp

/-! ### Reset / seeding lemmas -/

/-- Folding per-proc continuation replacement over the proc list is the
pointwise replacement on list members. -/
theorem foldl_update_eq {P C : Type} [DecidableEq P] (l : List P)
    (g : P → C) :
    ∀ (f : P → C) (p : P),
      (l.foldl (fun m q => Function.update m q (g q)) f) p
        = if p ∈ l then g p else f p := by
  induction l with
  | nil =>
    intro f p
    simp
  | cons q l ih =>
    intro f p
    rw [List.foldl_cons, ih]
    by_cases hp : p ∈ l
    · rw [if_pos hp, if_pos (List.mem_cons_of_mem q hp)]
    · rw [if_neg hp]
      by_cases hpq : p = q
      · subst hpq
        rw [if_pos (List.mem_cons_self p l), Function.update_same]
      · rw [if_neg (by simp [hpq, hp]), Function.update_noteq hpq]

/-- Seeding one channel's initial values only touches that channel's
queue. -/
theorem seed_channel_fold {Ch : Type} [DecidableEq Ch] (ch : Ch)
    (kind : ChannelKind) (ivs : List XValue) :
    ∀ qs : Ch → List XValue,
      ivs.foldl
        (fun qs v => Function.update qs ch (enqueueValue kind (qs ch) v)) qs
        = Function.update qs ch (ivs.foldl (enqueueValue kind) (qs ch)) := by
  induction ivs with
  | nil =>
    intro qs
    simp
  | cons v ivs ih =>
    intro qs
    rw [List.foldl_cons, ih, Function.update_same, Function.update_idem,
      List.foldl_cons]

/-- FIFO enqueueing of a value list appends it. -/
theorem foldl_enqueue_fifo (l : List XValue) :
    ∀ acc, l.foldl (enqueueValue .fifo) acc = acc ++ l := by
  induction l with
  | nil =>
    intro acc
    simp
  | cons v l ih =>
    intro acc
    rw [List.foldl_cons, ih]
    simp [enqueueValue]

/-- The seeding loop seeds each declared channel from its own initial
values and leaves undeclared channels alone. -/
theorem seedInitialValues_at {Ch : Type} [DecidableEq Ch]
    (channels : List Ch) (kind : Ch → ChannelKind)
    (ivs : Ch → List XValue) :
    ∀ qs, channels.Nodup →
    (∀ ch, ch ∈ channels →
      seedInitialValues channels kind ivs qs ch
        = (ivs ch).foldl (enqueueValue (kind ch)) (qs ch))
    ∧ (∀ ch, ¬ ch ∈ channels →
      seedInitialValues channels kind ivs qs ch = qs ch) := by
  induction channels with
  | nil =>
    intro qs _
    exact ⟨fun ch h => absurd h (List.not_mem_nil ch), fun ch _ => rfl⟩
  | cons c cs ih =>
    intro qs hnd
    rw [List.nodup_cons] at hnd
    obtain ⟨hc_not, hnd'⟩ := hnd
    have hstep : seedInitialValues (c :: cs) kind ivs qs
        = seedInitialValues cs kind ivs
          (Function.update qs c
            ((ivs c).foldl (enqueueValue (kind c)) (qs c))) := by
      rw [seedInitialValues, List.foldl_cons, seed_channel_fold]
      rfl
    obtain ⟨ih1, ih2⟩ := ih
      (Function.update qs c ((ivs c).foldl (enqueueValue (kind c)) (qs c)))
      hnd'
    constructor
    · intro ch hch
      rcases List.mem_cons.1 hch with rfl | hch
      · rw [hstep, ih2 ch hc_not, Function.update_same]
      · rw [hstep, ih1 ch hch,
          Function.update_noteq (fun he => hc_not (by rw [← he]; exact hch))]
    · intro ch hch
      have hch_c : ch ≠ c := fun he => hch (he ▸ List.mem_cons_self c cs)
      have hch_cs : ¬ ch ∈ cs := fun hin => hch (List.mem_cons_of_mem c hin)
      rw [hstep, ih2 ch hch_cs, Function.update_noteq hch_c]

/-! ## Claims -/

/-- **C3.** For every value `v` of a channel's type `t`, unpacking the
packed bytes of `v` (with any trailing bytes) recovers `v`
(`Unpack(Pack(v,t),t) = v`); consequently enqueueing a value of the
channel's type on a queue (fresh and empty, so that this very value is
dequeued) and then dequeueing returns the original value. -/
theorem pack_unpack_roundtrip :
    (∀ (v : XValue) (t : XType) (rest : List Nat), hasType v t = true →
      unpackValue t (packValue v ++ rest) = v)
    ∧ (∀ (align kInit ces : Nat) (v : XValue) (t : XType),
        0 < align → 0 < ces → hasType v t = true → packedSize t ≤ ces →
        (ReadValueFromQueue t
          (WriteValueOnQueue v (mkByteQueue align kInit ces false))).1
          = some v) := by
  constructor
  · exact fun v t rest h => unpackValue_packValue v t rest h
  · intro align kInit ces v t ha hc ht hsize
    set q0 := mkByteQueue align kInit ces false with hq0
    have hwf0 := mkByteQueue_WFq align kInit ces ha hc
    have ha0 : q0.allocated_element_size = roundUpToNearest ces align := rfl
    have hces : ces ≤ q0.allocated_element_size := by
      rw [ha0]
      exact le_roundUpToNearest ces align ha
    have hps : packedSize t ≤ q0.allocated_element_size :=
      le_trans hsize hces
    set buf := BlitValueToBuffer v (List.replicate q0.element_size 0)
      with hbuf
    have hlen_pack : (packValue v).length = packedSize t :=
      packValue_length v t ht
    have hlen : buf.length = q0.allocated_element_size := by
      rw [hbuf, BlitValueToBuffer, List.length_append, List.length_drop,
        List.length_replicate, hlen_pack]
      show packedSize t
          + (q0.allocated_element_size - packedSize t)
        = q0.allocated_element_size
      omega
    set data : Nat → Nat := fun i => buf.getD i 0 with hdata
    have hWq : WriteValueOnQueue v q0 = q0.Write data := rfl
    obtain ⟨hwf1, hcont1, hbytes1, ha1⟩ := Write_spec hwf0 data
    have hcont1' : (q0.Write data).contents
        = [(List.range q0.allocated_element_size).map data] := by
      rw [hcont1, mkByteQueue_contents]
      rfl
    have hb1 : (q0.Write data).bytes_used ≠ 0 := by
      rw [hbytes1]
      have := hwf0.stride_pos
      have hb0 : q0.bytes_used = 0 := rfl
      omega
    obtain ⟨hr1, hout, hwf2, hcont2, _, ha2, helem0, _⟩ :=
      Read_some hwf1 hb1 (fun _ => 0)
    have hRVF : (ReadValueFromQueue t (q0.Write data)).1
        = some (unpackValue t
            ((List.range (q0.Write data).element_size).map
              ((q0.Write data).Read (fun _ => 0)).2.1)) := by
      simp only [ReadValueFromQueue, hr1, if_true]
    have hmap : (List.range (q0.Write data).element_size).map
        ((q0.Write data).Read (fun _ => 0)).2.1
        = (q0.Write data).elemAt 0 := by
      rw [helem0]
      show (List.range (q0.Write data).allocated_element_size).map _ = _
      apply List.map_congr_left
      intro i hi
      rw [List.mem_range] at hi
      exact hout i hi
    have helem_eq : (q0.Write data).elemAt 0
        = (List.range q0.allocated_element_size).map data := by
      have h := hcont1'.symm.trans hcont2
      injection h with h1 h2
      exact h1.symm
    have hflat : (List.range q0.allocated_element_size).map data = buf := by
      rw [hdata, ← hlen]
      exact range_map_getD buf
    have hbuf_eq : buf = packValue v
        ++ List.replicate (q0.allocated_element_size - packedSize t) 0 := by
      rw [hbuf, BlitValueToBuffer, hlen_pack, List.drop_replicate]
      rfl
    rw [hWq, hRVF, hmap, helem_eq, hflat, hbuf_eq,
      unpackValue_packValue v t _ ht]

/-- **C4.** For every well-formed empty FIFO byte store — including stores
whose `read_index` is nonzero from earlier traffic, so that overflow
forces the relocate-on-resize path — writing `N` elements with no
interleaved reads and then reading `N` times yields exactly the written
elements (stride-sized byte blocks) in write order. -/
theorem fifo_growth_preserves_order {q : ByteQueue} (h : WFq q)
    (hempty : q.bytes_used = 0) (ds : List (Nat → Nat)) :
    (readAll (writeList q ds) ds.length).1
      = ds.map (fun d => (List.range q.allocated_element_size).map d) := by
  obtain ⟨hwf, hcont, ha⟩ := writeList_spec h ds
  have hqcont : q.contents = [] := by
    rw [ByteQueue.contents, ByteQueue.size, hempty, Nat.zero_div]
    rfl
  have hsize : (writeList q ds).size = ds.length := by
    have hlen : (writeList q ds).contents.length = ds.length := by
      rw [hcont, hqcont]
      simp
    rw [ByteQueue.contents] at hlen
    simpa using hlen
  obtain ⟨h1, _⟩ := readAll_spec hwf ds.length hsize
  rw [h1, hcont, hqcont]
  simp

/-- **C5.** The circular byte store invariants hold after construction
and are preserved by every `Write`, `Read` and `Resize`: `bytes_used` is
at most the usable capacity, `write_index = (read_index + bytes_used) mod
capacity`, the usable capacity is `⌊buffer_size / stride⌋ * stride` (so no
partial element spans the end of the buffer), and the stride is the
channel element size rounded up to the platform's maximum alignment —
all of which are fields of `WFq`. -/
theorem circular_store_invariants (align kInit ces : Nat)
    (ha : 0 < align) (hc : 0 < ces) :
    (WFq (mkByteQueue align kInit ces false)
      ∧ (mkByteQueue align kInit ces false).allocated_element_size
          = roundUpToNearest ces align)
    ∧ (∀ (q : ByteQueue), WFq q → ∀ data, WFq (q.Write data))
    ∧ (∀ (q : ByteQueue), WFq q → ∀ out, WFq (q.Read out).2.2)
    ∧ (∀ (q : ByteQueue), WFq q → WFq q.Resize) := by
  refine ⟨⟨mkByteQueue_WFq align kInit ces ha hc, rfl⟩, ?_, ?_, ?_⟩
  · exact fun q hq data => (Write_spec hq data).1
  · intro q hq out
    by_cases hb : q.bytes_used = 0
    · rw [Read_empty hb out]
      exact hq
    · exact (Read_some hq hb out).2.2.1
  · exact fun q hq => (Resize_spec hq).1

/-- **C6.** `Read` on an empty store returns false without modifying the
output buffer or the queue state, and the typed `Dequeue`
(`ReadValueFromQueue`) returns an empty optional leaving the queue
unchanged; neither blocks (both are total functions returning at once). -/
theorem read_empty_nonblocking (q : ByteQueue) (t : XType)
    (out : Nat → Nat) (hempty : q.bytes_used = 0) :
    q.Read out = (false, out, q)
    ∧ (ReadValueFromQueue t q).1 = none
    ∧ (ReadValueFromQueue t q).2 = q := by
  have h0 := Read_empty hempty (fun _ => (0 : Nat))
  exact ⟨Read_empty hempty out,
    by simp [ReadValueFromQueue, h0],
    by simp [ReadValueFromQueue, h0]⟩

/-- **C7.** `Write` on a well-formed FIFO store is total and always
succeeds: it stores exactly one stride of bytes as a new element,
advancing `bytes_used` by one stride (the write index stays consistent by
`WFq`), and when the store is full the backing buffer doubles before the
write; accordingly the raw enqueue at the runtime boundary
(`EnqueueBufferToChannel`) unconditionally returns `OkStatus`. -/
theorem write_total_spec :
    (∀ (q : ByteQueue), WFq q → ∀ data,
      WFq (q.Write data)
      ∧ (q.Write data).contents = q.contents
          ++ [(List.range q.allocated_element_size).map data]
      ∧ (q.Write data).bytes_used
          = q.bytes_used + q.allocated_element_size
      ∧ (q.bytes_used + q.allocated_element_size > q.max_byte_count →
          (q.Write data).circular_buffer_size
            = q.circular_buffer_size * 2))
    ∧ (∀ (q : ByteQueue) (buffer : Nat → Nat),
        (EnqueueBufferToChannel q buffer).1 = Status.ok) := by
  refine ⟨?_, fun q buffer => rfl⟩
  intro q hq data
  obtain ⟨h1, h2, h3, _⟩ := Write_spec hq data
  refine ⟨h1, h2, h3, ?_⟩
  intro hfull
  obtain ⟨hwf', hcont', hu', hr', ha', hroom⟩ := Resize_spec hq
  rw [Write_full_eq hq data hfull]
  obtain ⟨_, _, _, _, _, _, hsz⟩ :=
    Write_not_full hwf' data (by rw [hu', ha']; exact hroom)
  rw [hsz]
  rfl

/-- **C1.** `SerialProcRuntime::Tick` repeats round-robin passes in the
package's declaration order over exactly the procs whose tick is not yet
complete (a proc whose tick completed is recorded as such, stays
completed, and is never invoked again within the call), records whether
any invocation in the pass made progress, stops exactly when all procs
have completed (after one vacuous pass) or when a full pass makes zero
progress, and on termination returns success in both cases — including
when blocked procs remain incomplete. -/
theorem tick_round_robin_spec {P C G : Type} [DecidableEq P]
    (step : P → C → G → C × G × TickResult) (procs : List P)
    (hnd : procs.Nodup) :
    (∀ s : TickState P C G, ∃ tnew,
      (tickPass step procs s).trace = s.trace ++ tnew
      ∧ tnew.map Prod.fst
          = procs.filter (fun p => decide (¬ p ∈ s.completed_procs))
      ∧ (tickPass step procs s).progress_made
          = tnew.any (fun pr => pr.2.progress_made)
      ∧ (∀ p r, (p, r) ∈ tnew → r.tick_complete = true
          → p ∈ (tickPass step procs s).completed_procs))
    ∧ (∀ fuel (s s' : TickState P C G),
        tickLoop step procs fuel s = some s' →
        (∃ text, s'.trace = s.trace ++ text
          ∧ ∀ p, p ∈ s.completed_procs → ∀ e ∈ text, e.1 ≠ p)
        ∧ (∀ p, p ∈ s.completed_procs → p ∈ s'.completed_procs))
    ∧ (∀ fuel (s s' : TickState P C G),
        tickLoop step procs fuel s = some s' → s'.progress_made = false)
    ∧ (∀ fuel (s : TickState P C G),
        (∀ p ∈ procs, p ∈ s.completed_procs) →
        tickLoop step procs (fuel + 1) s
          = some { s with progress_made := false })
    ∧ (∀ fuel conts g r,
        SerialTick step procs fuel conts g = some r
          → r.1 = Status.ok) := by
  refine ⟨?_, ?_, ?_, ?_, ?_⟩
  · intro s
    obtain ⟨tnew, h1, h2, h3, _, _, h6⟩ := tickPass_spec step procs s hnd
    exact ⟨tnew, h1, h2, h3, h6⟩
  · intro fuel s s' h
    obtain ⟨_, h2, h3⟩ := tickLoop_spec step procs hnd fuel s s' h
    exact ⟨h2, h3⟩
  · intro fuel s s' h
    exact (tickLoop_spec step procs hnd fuel s s' h).1
  · exact fun fuel s hall => tickLoop_all_complete step procs fuel s hall
  · intro fuel conts g r h
    rw [SerialTick] at h
    rcases hopt : tickLoop step procs fuel
        { continuations := conts, global := g, completed_procs := [],
          progress_made := true, trace := [] } with _ | s'
    · rw [hopt] at h
      simp at h
    · rw [hopt] at h
      simp only [Option.map_some'] at h
      obtain rfl := Option.some.inj h
      rfl

/-- **C2 counterexample.** On a concrete runtime whose single channel
queue holds a value that is not among its (empty) declared initial
values, `ResetState` leaves the queue's contents unchanged instead of
re-seeding it — so `ResetState` does not return the network to its
initial configuration. -/
theorem resetState_reseeds_counterexample :
    ¬ ((ResetState (fun _ => 0)
        ({ procs := [0], proc_jits := fun _ => 0,
           continuations := fun _ => 0,
           queues := fun _ => [XValue.bits 1 1] }
          : SerialProcRuntimeState Nat Nat Nat Nat (List XValue))).queues 0
      = seedInitialValues [0] (fun _ => ChannelKind.fifo) (fun _ => [])
          (fun _ => []) 0) := by
  intro h
  have hL : (ResetState (fun _ => 0)
      ({ procs := [0], proc_jits := fun _ => 0,
         continuations := fun _ => 0,
         queues := fun _ => [XValue.bits 1 1] }
        : SerialProcRuntimeState Nat Nat Nat Nat (List XValue))).queues 0
      = [XValue.bits 1 1] := rfl
  have hR : seedInitialValues [0] (fun _ => ChannelKind.fifo)
      (fun _ => ([] : List XValue)) (fun _ => []) 0 = [] := rfl
  rw [hL, hR] at h
  exact List.noConfusion h

/-- **C2 (amended).** `ResetState` discards every package proc's
continuation (and with it the captured execution state), replacing it by
a freshly created one, without reconstructing the compiled proc JITs; it
does not touch the queue manager or the channel queues — channels are
*not* re-seeded with their initial values. -/
theorem resetState_fresh_continuations {P J C Ch Q : Type} [DecidableEq P]
    (NewContinuation : P → C) (s : SerialProcRuntimeState P J C Ch Q) :
    (∀ p, p ∈ s.procs →
      (ResetState NewContinuation s).continuations p = NewContinuation p)
    ∧ (ResetState NewContinuation s).proc_jits = s.proc_jits
    ∧ (ResetState NewContinuation s).queues = s.queues
    ∧ (ResetState NewContinuation s).procs = s.procs := by
  refine ⟨?_, rfl, rfl, rfl⟩
  intro p hp
  show (s.procs.foldl
      (fun m q => Function.update m q (NewContinuation q))
      s.continuations) p = NewContinuation p
  rw [foldl_update_eq, if_pos hp]

/-- **C8.** The initial-value seeding performed right after the queue
manager's construction iterates channels in declaration order and values
in declared order, so that — starting from the freshly constructed empty
queues — every declared channel's queue holds exactly its declared
initial values (`SingleValue` channels declare at most one initial
value). -/
theorem queue_manager_seeds_initial_values {Ch : Type} [DecidableEq Ch]
    (channels : List Ch) (kind : Ch → ChannelKind)
    (ivs : Ch → List XValue) (hnd : channels.Nodup)
    (hsv : ∀ ch, kind ch = ChannelKind.single_value
      → (ivs ch).length ≤ 1) :
    ∀ ch, ch ∈ channels →
      seedInitialValues channels kind ivs (fun _ => []) ch = ivs ch := by
  intro ch hch
  obtain ⟨h1, _⟩ := seedInitialValues_at channels kind ivs (fun _ => []) hnd
  rw [h1 ch hch]
  rcases hkind : kind ch with _ | _
  · rw [foldl_enqueue_fifo]
    simp
  · have hlen := hsv ch hkind
    rcases hivs : ivs ch with _ | ⟨v, rest⟩
    · rfl
    · rcases rest with _ | ⟨v2, rest2⟩
      · simp [enqueueValue]
      · rw [hivs] at hlen
        simp at hlen

/-- **C9.** For every single-threaded sequence of enqueue, dequeue and
size operations, the thread-safe and the thread-unsafe queue variants
produce identical outputs and identical final queue state: their
internals are the same functions, the variants differing only in mutual
exclusion. -/
theorem thread_variants_equivalent (t : XType) :
    ∀ (ops : List QOp) (q : ByteQueue),
      runThreadSafe q t ops = runThreadUnsafe q t ops := by
  intro ops
  induction ops with
  | nil =>
    intro q
    rfl
  | cons op ops ih =>
    intro q
    cases op with
    | enqueueOp v =>
      simp [runThreadSafe, runThreadUnsafe, ThreadSafeWriteInternal,
        ThreadUnsafeWriteInternal, ih]
    | dequeueOp td =>
      simp [runThreadSafe, runThreadUnsafe, ThreadSafeReadInternal,
        ThreadUnsafeReadInternal, ih]
    | getSizeOp =>
      simp [runThreadSafe, runThreadUnsafe, ThreadSafeGetSizeInternal,
        ThreadUnsafeGetSizeInternal, ih]

/-- **C10.** `ResetState` modifies only the per-proc continuations: every
package proc's continuation is replaced by a freshly created one,
continuations outside the package are untouched, and the compiled proc
JITs, the queue manager's channel queues, and the proc list are left
unchanged. -/
theorem resetState_frame {P J C Ch Q : Type} [DecidableEq P]
    (NewContinuation : P → C) (s : SerialProcRuntimeState P J C Ch Q) :
    (ResetState NewContinuation s).proc_jits = s.proc_jits
    ∧ (ResetState NewContinuation s).queues = s.queues
    ∧ (ResetState NewContinuation s).procs = s.procs
    ∧ (∀ p, p ∈ s.procs →
        (ResetState NewContinuation s).continuations p
          = NewContinuation p)
    ∧ (∀ p, ¬ p ∈ s.procs →
        (ResetState NewContinuation s).continuations p
          = s.continuations p) := by
  refine ⟨rfl, rfl, rfl, ?_, ?_⟩
  · intro p hp
    show (s.procs.foldl
        (fun m q => Function.update m q (NewContinuation q))
        s.continuations) p = NewContinuation p
    rw [foldl_update_eq, if_pos hp]
  · intro p hp
    show (s.procs.foldl
        (fun m q => Function.update m q (NewContinuation q))
        s.continuations) p = s.continuations p
    rw [foldl_update_eq, if_neg hp]

/-! ## Witnesses -/

/-- Witness for C1: a concrete two-proc network whose procs complete on
their first invocation converges, with the final pass making no
progress. -/
theorem tick_round_robin_spec_witness :
    (tickLoop
      (fun (_ : Nat) (c : Nat) (g : Nat)
        => (c + 1, g, TickResult.mk true true))
      [0, 1] 3
      { continuations := fun _ => 0, global := 0, completed_procs := [],
        progress_made := true, trace := [] }).map TickState.progress_made
      = some false := by
  obtain ⟨s', hs'⟩ : ∃ s', tickLoop
      (fun (_ : Nat) (c : Nat) (g : Nat)
        => (c + 1, g, TickResult.mk true true))
      [0, 1] 3
      { continuations := fun _ => 0, global := 0, completed_procs := [],
        progress_made := true, trace := [] } = some s' := ⟨_, rfl⟩
  rw [hs', Option.map_some']
  exact congrArg some
    ((tick_round_robin_spec
      (fun (_ : Nat) (c : Nat) (g : Nat)
        => (c + 1, g, TickResult.mk true true))
      [0, 1] (by decide)).2.2.1 3 _ s' hs')

/-- Witness for C2 (amended): a package proc's continuation is replaced
by the freshly created one. -/
theorem resetState_fresh_continuations_witness :
    (ResetState (fun p => p + 100)
      ({ procs := [0, 1], proc_jits := fun _ => 0,
         continuations := fun _ => 7,
         queues := fun _ => ([] : List XValue) }
        : SerialProcRuntimeState Nat Nat Nat Nat (List XValue))
      ).continuations 1 = 101 :=
  (resetState_fresh_continuations (fun p => p + 100) _).1 1 (by decide)

/-- Witness for C3: a concrete byte round trip through the codec and
through a fresh queue. -/
theorem pack_unpack_roundtrip_witness :
    unpackValue (XType.bits 8) (packValue (XValue.bits 8 3) ++ [])
        = XValue.bits 8 3
    ∧ (ReadValueFromQueue (XType.bits 8)
        (WriteValueOnQueue (XValue.bits 8 3) (mkByteQueue 16 128 1 false))).1
        = some (XValue.bits 8 3) :=
  ⟨pack_unpack_roundtrip.1 (XValue.bits 8 3) (XType.bits 8) [] (by decide),
   pack_unpack_roundtrip.2 16 128 1 (XValue.bits 8 3) (XType.bits 8)
     (by norm_num) (by norm_num) (by decide) (by decide)⟩

/-- Witness for C4: five writes overflow a four-byte store (stride one),
doubling it, and read-out returns the written bytes in order. -/
theorem fifo_growth_preserves_order_witness :
    (readAll (writeList (mkByteQueue 1 4 1 false)
      [fun _ => 7, fun _ => 8, fun _ => 9, fun _ => 10, fun _ => 11]) 5).1
      = [[7], [8], [9], [10], [11]] :=
  fifo_growth_preserves_order
    (mkByteQueue_WFq 1 4 1 (by norm_num) (by norm_num)) rfl
    [fun _ => 7, fun _ => 8, fun _ => 9, fun _ => 10, fun _ => 11]

/-- Witness for C5: the invariant holds on a freshly constructed store. -/
theorem circular_store_invariants_witness :
    (mkByteQueue 16 128 4 false).bytes_used
      ≤ (mkByteQueue 16 128 4 false).max_byte_count :=
  ((circular_store_invariants 16 128 4 (by norm_num)
    (by norm_num)).1.1).used_le

/-- Witness for C6: dequeueing a fresh (empty) queue yields no value. -/
theorem read_empty_nonblocking_witness :
    (ReadValueFromQueue (XType.bits 8) (mkByteQueue 16 128 1 false)).1
      = none :=
  (read_empty_nonblocking (mkByteQueue 16 128 1 false) (XType.bits 8)
    (fun _ => 0) rfl).2.1

/-- Witness for C7: a concrete write advances `bytes_used` by one
stride. -/
theorem write_total_spec_witness :
    ((mkByteQueue 16 128 4 false).Write (fun _ => 5)).bytes_used
      = (mkByteQueue 16 128 4 false).bytes_used
        + (mkByteQueue 16 128 4 false).allocated_element_size :=
  (write_total_spec.1 (mkByteQueue 16 128 4 false)
    (mkByteQueue_WFq 16 128 4 (by norm_num) (by norm_num))
    (fun _ => 5)).2.2.1

/-- Witness for C8: concrete seeding of a two-channel network. -/
theorem queue_manager_seeds_initial_values_witness :
    seedInitialValues [0, 1] (fun _ => ChannelKind.fifo)
      (fun ch => if ch = 0 then [XValue.bits 8 1, XValue.bits 8 2]
                 else [XValue.bits 8 7])
      (fun _ => []) 0
      = [XValue.bits 8 1, XValue.bits 8 2] :=
  queue_manager_seeds_initial_values [0, 1] (fun _ => ChannelKind.fifo)
    (fun ch => if ch = 0 then [XValue.bits 8 1, XValue.bits 8 2]
               else [XValue.bits 8 7])
    (by decide) (fun ch hch => ChannelKind.noConfusion hch) 0 (by decide)

/-- Witness for C10: a continuation outside the package is untouched by
`ResetState`. -/
theorem resetState_frame_witness :
    (ResetState (fun p => p + 100)
      ({ procs := [0], proc_jits := fun _ => 3,
         continuations := fun _ => 7,
         queues := fun _ => ([] : List XValue) }
        : SerialProcRuntimeState Nat Nat Nat Nat (List XValue))
      ).continuations 5 = 7 :=
  (resetState_frame (fun p => p + 100) _).2.2.2.2 5 (by decide)

end XlsJit
